import Mathlib

/-!
Shallow embedding of the coverage-checking core of src/app.py
(normalize_token, extract_check_items_robust, get_missing_rule_lines),
together with a spec-modelled fuzzy matching mode.

Text is modelled as `List Char`.  The regular expressions of the source
are embedded as deterministic scanners: each of the three patterns used
by the code (`(-?\d+\.?\d*)([a-z%]*)`, `-?\d+\.?\d*\s*[a-z%]*`,
`\b[\w\-]{2,}\b` / `\b[\w\-\+\.]+\b`) never needs backtracking beyond
stripping characters from the end of a greedy run to satisfy a trailing
word boundary, which the embedding performs explicitly.  Character
classes are the ASCII classes of the patterns.
-/

/-- Convert a string literal to the `List Char` the embedding works on. -/
def strL (s : String) : List Char := s.data

/-- ASCII lower-casing, as `str.lower()` acts on the characters relevant here. -/
def lowChar (c : Char) : Char :=
  if 65 ≤ c.toNat ∧ c.toNat ≤ 90 then Char.ofNat (c.toNat + 32) else c

/-- The class `\d` (ASCII): the characters 0-9. -/
def isDigitChar (c : Char) : Bool := decide (48 ≤ c.toNat ∧ c.toNat ≤ 57)

/-- The class `[a-z0-9]` kept by `re.sub(r'[^a-z0-9]', '', ...)`. -/
def isKeptChar (c : Char) : Bool :=
  decide ((97 ≤ c.toNat ∧ c.toNat ≤ 122) ∨ (48 ≤ c.toNat ∧ c.toNat ≤ 57))

/-- The class `[a-z%]` used for the unit part of a numeric token. -/
def isUnitChar (c : Char) : Bool :=
  decide ((97 ≤ c.toNat ∧ c.toNat ≤ 122) ∨ c.toNat = 37)

/-- The class `\s` (ASCII whitespace). -/
def isSpaceChar (c : Char) : Bool :=
  decide (c.toNat = 32 ∨ c.toNat = 9 ∨ c.toNat = 10 ∨ c.toNat = 13 ∨
    c.toNat = 11 ∨ c.toNat = 12)

/-- The class `\w` (ASCII): letters, digits and the underscore. -/
def isWordChar (c : Char) : Bool :=
  decide ((65 ≤ c.toNat ∧ c.toNat ≤ 90) ∨ (97 ≤ c.toNat ∧ c.toNat ≤ 122) ∨
    (48 ≤ c.toNat ∧ c.toNat ≤ 57) ∨ c.toNat = 95)

/-- `re.sub(r'[^a-z0-9]', '', s)`: keep only lowercase letters and digits. -/
def strip (s : List Char) : List Char := s.filter isKeptChar

/-- `re.match(r'(-?\d+\.?\d*)([a-z%]*)', s)`: the two captured groups when the
anchored pattern matches, `none` otherwise.  Every quantifier of the pattern
is greedy and the pattern tail can match the empty string, so a single
deterministic left-to-right pass is the exact semantics. -/
def matchNumUnit (s : List Char) : Option (List Char × List Char) :=
  let sign : List Char := if s.head? = some '-' then ['-'] else []
  let s1 : List Char := if s.head? = some '-' then s.tail else s
  let d1 := s1.takeWhile isDigitChar
  if d1 = [] then none
  else
    let s2 := s1.dropWhile isDigitChar
    let dot : List Char := if s2.head? = some '.' then ['.'] else []
    let s3 : List Char := if s2.head? = some '.' then s2.tail else s2
    let d2 := s3.takeWhile isDigitChar
    let s4 := s3.dropWhile isDigitChar
    some (sign ++ d1 ++ dot ++ d2, s4.takeWhile isUnitChar)

/-- src/app.py `normalize_token`. -/
def normalize_token (token : List Char) : List Char :=
  let t := token.map lowChar
  match matchNumUnit t with
  | some (g1, g2) => strip (g1 ++ g2)
  | none => strip t

/-- One attempted match of `-?\d+\.?\d*\s*[a-z%]*` at the current position:
the matched text and the remaining input on success. -/
def numStep (s : List Char) : Option (List Char × List Char) :=
  let sign : List Char := if s.head? = some '-' then ['-'] else []
  let s1 : List Char := if s.head? = some '-' then s.tail else s
  let d1 := s1.takeWhile isDigitChar
  if d1 = [] then none
  else
    let s2 := s1.dropWhile isDigitChar
    let dot : List Char := if s2.head? = some '.' then ['.'] else []
    let s3 : List Char := if s2.head? = some '.' then s2.tail else s2
    let d2 := s3.takeWhile isDigitChar
    let s4 := s3.dropWhile isDigitChar
    let sp := s4.takeWhile isSpaceChar
    let s5 := s4.dropWhile isSpaceChar
    let unit := s5.takeWhile isUnitChar
    let s6 := s5.dropWhile isUnitChar
    some (sign ++ d1 ++ dot ++ d2 ++ sp ++ unit, s6)

/-- Whether an optional character is a word character; the end of the input
behaves as a non-word character for `\b`. -/
def isWordOpt : Option Char → Bool
  | some c => isWordChar c
  | none => false

/-- Greedy backtracking for the trailing `\b` of a bounded-class match: given
the candidate run reversed and the character following it, the length of the
longest prefix of the run that ends at a word boundary and has at least
`minLen` characters. -/
def chooseLen (minLen : Nat) : List Char → Option Char → Option Nat
  | [], _ => none
  | c :: revRest, next =>
    if isWordChar c ≠ isWordOpt next then
      if minLen ≤ revRest.length + 1 then some (revRest.length + 1) else none
    else chooseLen minLen revRest (some c)

/-- One attempted match of a pattern `\b[class]{minLen,}\b` at the current
position, `prev` being the character immediately before that position. -/
def boundedStep (cls : Char → Bool) (minLen : Nat) (prev : Option Char)
    (s : List Char) : Option (List Char × List Char) :=
  match s with
  | [] => none
  | c :: _ =>
    if isWordOpt prev ≠ isWordChar c then
      let run := s.takeWhile cls
      match chooseLen minLen run.reverse ((s.drop run.length).head?) with
      | some n => some (s.take n, s.drop n)
      | none => none
    else none

/-- `re.findall`-style scanning: attempt a match at every position from left
to right, consuming each successful (always nonempty) match.  The fuel is the
length of the scanned text, which bounds the number of positions. -/
def findallWith
    (step : Option Char → List Char → Option (List Char × List Char)) :
    Nat → Option Char → List Char → List (List Char)
  | 0, _, _ => []
  | fuel + 1, prev, s =>
    match step prev s with
    | some (m, rest) => m :: findallWith step fuel m.getLast? rest
    | none =>
      match s with
      | [] => []
      | c :: tail => findallWith step fuel (some c) tail

/-- The class `[\w\-]` of the plan-side alphanumeric pass. -/
def isAlnumRunChar (c : Char) : Bool := isWordChar c || c = '-'

/-- src/app.py `extract_check_items_robust`. -/
def extract_check_items_robust (text : List Char) : Finset (List Char) :=
  let t := text.map lowChar
  let numberMatches := findallWith (fun _ s => numStep s) t.length none t
  let alnumMatches := findallWith (boundedStep isAlnumRunChar 2) t.length none t
  (((numberMatches ++ alnumMatches).map strip).filter (fun i => !i.isEmpty)).toFinset

/-- The class `[\w\-\+\.]` of the rule-line token pattern. -/
def isRuleRunChar (c : Char) : Bool :=
  isWordChar c || c = '-' || c = '+' || c = '.'

/-- The per-line token extraction inside `get_missing_rule_lines`:
`re.findall(r'\b[\w\-\+\.]+\b', line)`. -/
def ruleLineTokens (line : List Char) : List (List Char) :=
  findallWith (boundedStep isRuleRunChar 1) line.length none line

/-- The normalized plan key set built at the top of `get_missing_rule_lines`:
`{normalize_token(t) for t in extract_check_items_robust(plan_text)}`. -/
def normalizedPlanTokens (plan_text : List Char) : Finset (List Char) :=
  (extract_check_items_robust plan_text).image normalize_token

/-- src/app.py `get_missing_rule_lines`: the accumulating loop of the source. -/
def get_missing_rule_lines (rule_lines : List (List Char))
    (plan_text : List Char) : List (List Char) :=
  let keys := normalizedPlanTokens plan_text
  rule_lines.foldl
    (fun acc line =>
      if (ruleLineTokens line).any
          (fun tok => decide (normalize_token tok ∉ keys)) then
        acc ++ [line]
      else acc) []

/-- Coverage status of a rule line, from the spec's data model
(Covered / Partial / Missing). -/
inductive Status where
  | covered : Status
  | partlyCovered : Status
  | missing : Status
  deriving DecidableEq

/-- One row update of the standard dynamic program for edit distance. -/
def editDistAux (c : Char) : List Char → List Nat → Nat → List Nat
  | [], _, _ => []
  | tc :: ts, prev, cur =>
    let diag := prev.headD 0
    let up := prev.tail.headD 0
    let v := min (cur + 1) (min (up + 1) (diag + (if c = tc then 0 else 1)))
    v :: editDistAux c ts prev.tail v

/-- Modelled from the spec: the edit distance underlying the "normalized
edit-similarity" of the fuzzy matching mode, which is absent from src/app.py. -/
def editDistance (s t : List Char) : Nat :=
  (s.foldl (fun prev c => (prev.headD 0 + 1) :: editDistAux c t prev (prev.headD 0 + 1))
      (List.range (t.length + 1))).getLastD 0

/-- Modelled from the spec: the "string-similarity ratio (normalized
edit-similarity, range [0,1])" used by the fuzzy matching mode, which is
absent from src/app.py. -/
def similarity (a b : List Char) : ℚ :=
  if a.length = 0 ∧ b.length = 0 then 1
  else 1 - (editDistance a b : ℚ) / ((Nat.max a.length b.length : Nat) : ℚ)

/-- Modelled from the spec: a word-class check item, as opposed to a
numeric-with-unit item ("Numeric items are never fuzzy-matched"). -/
def wordClassItem (item : List Char) : Bool :=
  match item with
  | [] => false
  | c :: _ => !isDigitChar c

/-- Modelled from the spec: the rule line's items whose normalized key is not
in the plan's normalized key set (`missing_items` of a LineVerdict). -/
def missingItemsOf (line plan_text : List Char) : Finset (List Char) :=
  (extract_check_items_robust line).filter
    (fun i => normalize_token i ∉ normalizedPlanTokens plan_text)

/-- Modelled from the spec: the rule line's items whose normalized key is in
the plan's normalized key set (`matched_items` of a LineVerdict). -/
def matchedItemsOf (line plan_text : List Char) : Finset (List Char) :=
  (extract_check_items_robust line).filter
    (fun i => normalize_token i ∈ normalizedPlanTokens plan_text)

/-- Modelled from the spec: the fuzzy matching mode of the Matcher, which is
absent from src/app.py.  A line is Covered when no item is missing; Partial
when some but not all items matched, or when a missing word-class item has a
plan token with similarity at least the partial threshold; Missing
otherwise. -/
def evaluateLine (fuzzy : Bool) (pThresh : ℚ) (line plan_text : List Char) :
    Status :=
  if missingItemsOf line plan_text = ∅ then Status.covered
  else if matchedItemsOf line plan_text ≠ ∅ then Status.partlyCovered
  else if fuzzy = true ∧ ∃ i ∈ missingItemsOf line plan_text,
      wordClassItem i = true ∧ ∃ t ∈ extract_check_items_robust plan_text,
        pThresh ≤ similarity i t then
    Status.partlyCovered
  else Status.missing

/-- The class `[a-z]`: lowercase ASCII letters. -/
def isLowerAlpha (c : Char) : Bool := decide (97 ≤ c.toNat ∧ c.toNat ≤ 122)

/-- The shape digits-then-lowercase-letters (with at least one digit) that
`normalize_token` produces whenever its leading-number pattern matches. -/
def NumShape (r : List Char) : Prop :=
  ∃ d l : List Char, r = d ++ l ∧ d ≠ [] ∧
    (∀ c ∈ d, isDigitChar c = true) ∧ (∀ c ∈ l, isLowerAlpha c = true)

/-! ### Helper lemmas -/

theorem foldl_append_eq_filter {α : Type} (p : α → Bool) (l acc : List α) :
    l.foldl (fun a x => if p x then a ++ [x] else a) acc = acc ++ l.filter p := by
  induction l generalizing acc with
  | nil => simp
  | cons x xs ih =>
    by_cases h : p x
    · simp [List.foldl_cons, h, ih, List.filter_cons]
    · simp [List.foldl_cons, h, ih, List.filter_cons]

theorem get_missing_eq_filter (rule_lines : List (List Char))
    (plan_text : List Char) :
    get_missing_rule_lines rule_lines plan_text
      = rule_lines.filter
          (fun line => (ruleLineTokens line).any
            (fun tok => decide (normalize_token tok ∉ normalizedPlanTokens plan_text))) := by
  unfold get_missing_rule_lines
  exact foldl_append_eq_filter _ rule_lines []

theorem mem_get_missing {rule_lines : List (List Char)}
    {plan_text line : List Char} :
    line ∈ get_missing_rule_lines rule_lines plan_text
      ↔ line ∈ rule_lines ∧ ∃ tok ∈ ruleLineTokens line,
          normalize_token tok ∉ normalizedPlanTokens plan_text := by
  rw [get_missing_eq_filter]
  simp [List.mem_filter, List.any_eq_true]

theorem p_of_mem_takeWhile {α : Type} {p : α → Bool} {l : List α} {a : α}
    (h : a ∈ l.takeWhile p) : p a = true := by
  induction l with
  | nil => cases h
  | cons b bs ih =>
    rw [List.takeWhile_cons] at h
    by_cases hb : p b
    · rw [if_pos hb] at h
      rcases List.mem_cons.mp h with rfl | h2
      · exact hb
      · exact ih h2
    · rw [if_neg hb] at h
      cases h

theorem takeWhile_eq_self_of_all {α : Type} {p : α → Bool} {l : List α}
    (h : ∀ a ∈ l, p a = true) : l.takeWhile p = l := by
  induction l with
  | nil => rfl
  | cons b bs ih =>
    rw [List.takeWhile_cons, if_pos (h b (List.mem_cons_self b bs))]
    rw [ih (fun a ha => h a (List.mem_cons_of_mem b ha))]

theorem takeWhile_eq_nil_of_all_not {α : Type} {p : α → Bool} {l : List α}
    (h : ∀ a ∈ l, p a = false) : l.takeWhile p = [] := by
  cases l with
  | nil => rfl
  | cons b bs =>
    rw [List.takeWhile_cons, if_neg]
    simp [h b (List.mem_cons_self b bs)]

theorem dropWhile_eq_self_of_all_not {α : Type} {p : α → Bool} {l : List α}
    (h : ∀ a ∈ l, p a = false) : l.dropWhile p = l := by
  cases l with
  | nil => rfl
  | cons b bs =>
    rw [List.dropWhile_cons, if_neg]
    simp [h b (List.mem_cons_self b bs)]

theorem takeWhile_append_of_all {α : Type} {p : α → Bool} {l1 l2 : List α}
    (h : ∀ a ∈ l1, p a = true) :
    (l1 ++ l2).takeWhile p = l1 ++ l2.takeWhile p := by
  induction l1 with
  | nil => simp
  | cons b bs ih =>
    rw [List.cons_append, List.takeWhile_cons,
      if_pos (h b (List.mem_cons_self b bs)), ih (fun a ha => h a (List.mem_cons_of_mem b ha))]
    rfl

theorem dropWhile_append_of_all {α : Type} {p : α → Bool} {l1 l2 : List α}
    (h : ∀ a ∈ l1, p a = true) :
    (l1 ++ l2).dropWhile p = l2.dropWhile p := by
  induction l1 with
  | nil => simp
  | cons b bs ih =>
    rw [List.cons_append, List.dropWhile_cons,
      if_pos (h b (List.mem_cons_self b bs)), ih (fun a ha => h a (List.mem_cons_of_mem b ha))]

theorem kept_range {c : Char} (h : isKeptChar c = true) :
    (97 ≤ c.toNat ∧ c.toNat ≤ 122) ∨ (48 ≤ c.toNat ∧ c.toNat ≤ 57) :=
  of_decide_eq_true h

theorem digit_range {c : Char} (h : isDigitChar c = true) :
    48 ≤ c.toNat ∧ c.toNat ≤ 57 :=
  of_decide_eq_true h

theorem lower_range {c : Char} (h : isLowerAlpha c = true) :
    97 ≤ c.toNat ∧ c.toNat ≤ 122 :=
  of_decide_eq_true h

theorem kept_of_digit {c : Char} (h : isDigitChar c = true) :
    isKeptChar c = true := by
  have := digit_range h
  exact decide_eq_true (Or.inr this)

theorem kept_of_lower {c : Char} (h : isLowerAlpha c = true) :
    isKeptChar c = true := by
  have := lower_range h
  exact decide_eq_true (Or.inl this)

theorem lowChar_of_kept {c : Char} (h : isKeptChar c = true) : lowChar c = c := by
  have h2 := kept_range h
  unfold lowChar
  rw [if_neg (by omega)]

theorem map_lowChar_of_kept {s : List Char}
    (h : ∀ c ∈ s, isKeptChar c = true) : s.map lowChar = s := by
  induction s with
  | nil => rfl
  | cons c cs ih =>
    rw [List.map_cons, lowChar_of_kept (h c (List.mem_cons_self c cs))]
    rw [ih (fun a ha => h a (List.mem_cons_of_mem c ha))]

theorem mem_strip_kept {c : Char} {s : List Char} (h : c ∈ strip s) :
    isKeptChar c = true :=
  List.of_mem_filter h

theorem strip_eq_self_of_all {s : List Char}
    (h : ∀ c ∈ s, isKeptChar c = true) : strip s = s :=
  List.filter_eq_self.mpr h

theorem normalize_token_kept (t : List Char) :
    ∀ c ∈ normalize_token t, isKeptChar c = true := by
  intro c hc
  simp only [normalize_token] at hc
  rcases hm : matchNumUnit (t.map lowChar) with - | ⟨g1, g2⟩
  · rw [hm] at hc
    exact List.of_mem_filter hc
  · rw [hm] at hc
    exact List.of_mem_filter hc

theorem unit_range {c : Char} (h : isUnitChar c = true) :
    (97 ≤ c.toNat ∧ c.toNat ≤ 122) ∨ c.toNat = 37 :=
  of_decide_eq_true h

theorem not_digit_of_lower {c : Char} (h : isLowerAlpha c = true) :
    isDigitChar c = false := by
  have := lower_range h
  exact decide_eq_false (by omega)

theorem unit_of_lower {c : Char} (h : isLowerAlpha c = true) :
    isUnitChar c = true :=
  decide_eq_true (Or.inl (lower_range h))

theorem matchNumUnit_digit_letters {c0 : Char} {d' l : List Char}
    (hdd : ∀ c ∈ c0 :: d', isDigitChar c = true)
    (hll : ∀ c ∈ l, isLowerAlpha c = true) :
    matchNumUnit ((c0 :: d') ++ l) = some (c0 :: d', l) := by
  have hc0 : isDigitChar c0 = true := hdd c0 (List.mem_cons_self _ _)
  have hladig : ∀ c ∈ l, isDigitChar c = false := fun c hc =>
    not_digit_of_lower (hll c hc)
  have htake : ((c0 :: d') ++ l).takeWhile isDigitChar = c0 :: d' := by
    rw [takeWhile_append_of_all hdd, takeWhile_eq_nil_of_all_not hladig,
      List.append_nil]
  have hdrop : ((c0 :: d') ++ l).dropWhile isDigitChar = l := by
    rw [dropWhile_append_of_all hdd, dropWhile_eq_self_of_all_not hladig]
  have htl : l.takeWhile isDigitChar = [] := takeWhile_eq_nil_of_all_not hladig
  have hdl : l.dropWhile isDigitChar = l := dropWhile_eq_self_of_all_not hladig
  have hunit : l.takeWhile isUnitChar = l :=
    takeWhile_eq_self_of_all (fun c hc => unit_of_lower (hll c hc))
  have hne : (((c0 :: d') ++ l).head? = some '-') = False := by
    simp only [List.cons_append, List.head?_cons, Option.some.injEq,
      eq_iff_iff, iff_false]
    intro he
    have hr := digit_range hc0
    have hv : ('-' : Char).toNat = 45 := rfl
    rw [he, hv] at hr
    omega
  have hdot : (l.head? = some '.') = False := by
    cases l with
    | nil => simp
    | cons c1 l' =>
      simp only [List.head?_cons, Option.some.injEq, eq_iff_iff, iff_false]
      intro he
      have hr := lower_range (hll c1 (List.mem_cons_self _ _))
      have hv : ('.' : Char).toNat = 46 := rfl
      rw [he, hv] at hr
      omega
  simp only [matchNumUnit, hne, if_false]
  rw [htake, hdrop]
  rw [if_neg (List.cons_ne_nil c0 d')]
  simp only [hdot, if_false]
  rw [htl, hdl, hunit]
  simp

theorem matchNumUnit_nil : matchNumUnit ([] : List Char) = none := rfl

theorem matchNumUnit_letter_head {c : Char} {cs : List Char}
    (hlet : 97 ≤ c.toNat ∧ c.toNat ≤ 122) :
    matchNumUnit (c :: cs) = none := by
  have hcdash : ¬(c = '-') := by
    intro he
    have hv : ('-' : Char).toNat = 45 := rfl
    rw [he, hv] at hlet
    omega
  have hcd : isDigitChar c = false := decide_eq_false (by omega)
  have ht : (c :: cs).takeWhile isDigitChar = [] := by
    rw [List.takeWhile_cons, if_neg (by simp [hcd])]
  simp [matchNumUnit, hcdash, ht]

theorem matchNumUnit_digit_head_alnum {c : Char} {cs : List Char}
    (h : ∀ x ∈ c :: cs, isKeptChar x = true)
    (hdig : isDigitChar c = true) :
    matchNumUnit (c :: cs)
      = some ((c :: cs).takeWhile isDigitChar,
          ((c :: cs).dropWhile isDigitChar).takeWhile isUnitChar) := by
  have hcdash : ¬(c = '-') := by
    intro he
    have hr := digit_range hdig
    have hv : ('-' : Char).toNat = 45 := rfl
    rw [he, hv] at hr
    omega
  have hRhead : ∀ x, ((c :: cs).dropWhile isDigitChar).head? = some x →
      isDigitChar x = false := by
    intro x hx
    have hh := List.head?_dropWhile_not isDigitChar (c :: cs)
    rw [hx] at hh
    exact hh
  have hRdot : (((c :: cs).dropWhile isDigitChar).head? = some '.') = False := by
    cases hre : ((c :: cs).dropWhile isDigitChar).head? with
    | none => simp
    | some x =>
      simp only [Option.some.injEq, eq_iff_iff, iff_false]
      intro he
      subst he
      have hx : '.' ∈ (c :: cs).dropWhile isDigitChar := by
        cases hcase : (c :: cs).dropWhile isDigitChar with
        | nil => rw [hcase] at hre; cases hre
        | cons y r =>
          rw [hcase] at hre
          simp only [List.head?_cons, Option.some.injEq] at hre
          rw [← hre]
          exact List.mem_cons_self _ _
      have hk := kept_range (h _ (List.Sublist.mem hx (List.dropWhile_sublist _)))
      have hv : ('.' : Char).toNat = 46 := rfl
      rw [hv] at hk
      omega
  have hd2 : ((c :: cs).dropWhile isDigitChar).takeWhile isDigitChar = [] := by
    cases hcase : (c :: cs).dropWhile isDigitChar with
    | nil => rfl
    | cons y r =>
      have hy := hRhead y (by rw [hcase]; rfl)
      exact List.takeWhile_cons_of_neg (by simp [hy])
  have hs4 : ((c :: cs).dropWhile isDigitChar).dropWhile isDigitChar
      = (c :: cs).dropWhile isDigitChar := by
    cases hcase : (c :: cs).dropWhile isDigitChar with
    | nil => rfl
    | cons y r =>
      have hy := hRhead y (by rw [hcase]; rfl)
      exact List.dropWhile_cons_of_neg (by simp [hy])
  have hne2 : ((c :: cs).takeWhile isDigitChar = []) = False := by
    rw [List.takeWhile_cons_of_pos (by simp [hdig])]
    simp
  simp only [matchNumUnit, List.head?_cons, Option.some.injEq, eq_false hcdash,
    if_false, hne2, hRdot, hd2, hs4]
  simp

theorem normalize_token_shape_fixed {r : List Char} (hsh : NumShape r) :
    normalize_token r = r := by
  obtain ⟨d, l, rfl, hd, hdd, hll⟩ := hsh
  obtain ⟨c0, d', rfl⟩ : ∃ c0 d', d = c0 :: d' := by
    cases d with
    | nil => exact absurd rfl hd
    | cons a b => exact ⟨a, b, rfl⟩
  have hkept : ∀ c ∈ (c0 :: d') ++ l, isKeptChar c = true := by
    intro c hc
    rcases List.mem_append.mp hc with h1 | h2
    · exact kept_of_digit (hdd c h1)
    · exact kept_of_lower (hll c h2)
  simp only [normalize_token, map_lowChar_of_kept hkept,
    matchNumUnit_digit_letters hdd hll]
  exact strip_eq_self_of_all hkept

theorem normalize_token_alnum {s : List Char}
    (h : ∀ c ∈ s, isKeptChar c = true) :
    normalize_token s = s ∨ NumShape (normalize_token s) := by
  have hmap : s.map lowChar = s := map_lowChar_of_kept h
  cases s with
  | nil =>
    left
    rfl
  | cons c cs =>
    have hc := h c (List.mem_cons_self _ _)
    rcases kept_range hc with hlet | hdig
    · left
      simp only [normalize_token, hmap, matchNumUnit_letter_head hlet]
      exact strip_eq_self_of_all h
    · right
      have hdigb : isDigitChar c = true := decide_eq_true hdig
      simp only [normalize_token, hmap, matchNumUnit_digit_head_alnum h hdigb]
      have hDd : ∀ x ∈ (c :: cs).takeWhile isDigitChar, isDigitChar x = true :=
        fun x hx => p_of_mem_takeWhile hx
      have hLl : ∀ x ∈ ((c :: cs).dropWhile isDigitChar).takeWhile isUnitChar,
          isLowerAlpha x = true := by
        intro x hx
        have hu := unit_range (p_of_mem_takeWhile hx)
        have hk := kept_range (h x (List.Sublist.mem
          (List.Sublist.mem hx (List.takeWhile_sublist _)) (List.dropWhile_sublist _)))
        exact decide_eq_true (show 97 ≤ x.toNat ∧ x.toNat ≤ 122 by omega)
      have hDne : (c :: cs).takeWhile isDigitChar ≠ [] := by
        rw [List.takeWhile_cons_of_pos (by simp [hdigb])]
        exact List.cons_ne_nil _ _
      have hstrip : strip ((c :: cs).takeWhile isDigitChar ++
          ((c :: cs).dropWhile isDigitChar).takeWhile isUnitChar)
          = (c :: cs).takeWhile isDigitChar ++
            ((c :: cs).dropWhile isDigitChar).takeWhile isUnitChar := by
        refine strip_eq_self_of_all ?_
        intro x hx
        rcases List.mem_append.mp hx with h1 | h2
        · exact kept_of_digit (hDd x h1)
        · exact kept_of_lower (hLl x h2)
      rw [hstrip]
      exact ⟨_, _, rfl, hDne, hDd, hLl⟩

theorem normalize_token_idem_of_kept {s : List Char}
    (h : ∀ c ∈ s, isKeptChar c = true) :
    normalize_token (normalize_token s) = normalize_token s := by
  rcases normalize_token_alnum h with h1 | h2
  · rw [h1]
    exact h1
  · exact normalize_token_shape_fixed h2

/-! ### Claims -/

/-- C1: get_missing_rule_lines returns exactly those rule lines that have at
least one extracted token whose normalized key is not in the set of normalized
keys extracted from the plan text; equivalently, a rule line is omitted from
the missing list (Covered) iff every one of its tokens' normalized keys occurs
in the plan's normalized key set. -/
theorem c1_missing_lines_exactly_uncovered (rule_lines : List (List Char))
    (plan_text : List Char) :
    get_missing_rule_lines rule_lines plan_text
      = rule_lines.filter (fun line => (ruleLineTokens line).any
          (fun tok => decide (normalize_token tok ∉ normalizedPlanTokens plan_text)))
    ∧ ∀ line, line ∈ get_missing_rule_lines rule_lines plan_text
        ↔ line ∈ rule_lines ∧ ∃ tok ∈ ruleLineTokens line,
            normalize_token tok ∉ normalizedPlanTokens plan_text :=
  ⟨get_missing_eq_filter rule_lines plan_text, fun _ => mem_get_missing⟩

/-- C2 (counterexample): on the text "a" the rule-line extraction and the
plan-side Tokenizer do not produce the same normalized token set, so the two
extraction algorithms are not the same. -/
theorem c2_counterexample :
    ¬ ((ruleLineTokens (strL ("a"))).map normalize_token).toFinset
        = (extract_check_items_robust (strL ("a"))).image normalize_token := by
  decide

/-- C2 (amended): rule-line extraction uses `\b[\w\-\+\.]+\b` per line rather
than extract_check_items_robust; the algorithms differ, e.g. the single-letter
word "a" is kept as a rule token but dropped by the plan-side Tokenizer, whose
alphanumeric pass requires length at least 2. -/
theorem c2_rule_extraction_not_tokenizer :
    ruleLineTokens (strL ("a")) = [strL ("a")]
    ∧ ((ruleLineTokens (strL ("a"))).map normalize_token).toFinset = {strL ("a")}
    ∧ extract_check_items_robust (strL ("a")) = ∅ := by
  decide

/-- C3 (counterexample): none of the claimed unit equivalences of
normalize_token hold: "25C" and "25 °C", "256-QAM" and "256QAM", and
"25 C" / "25C" / "25.0c" all map to different keys. -/
theorem c3_counterexample :
    ¬ (normalize_token (strL ("25C")) = normalize_token (strL ("25 °C"))
       ∧ normalize_token (strL ("256-QAM")) = normalize_token (strL ("256QAM"))
       ∧ normalize_token (strL ("25 C")) = normalize_token (strL ("25C"))
       ∧ normalize_token (strL ("25C")) = normalize_token (strL ("25.0c"))) := by
  decide

/-- C3 (amended): the unit part of normalize_token stops at the first
character outside `[a-z%]`, so a space or hyphen separates the number from its
unit and the decimal point is deleted afterwards: the actual values are
"25C" ↦ "25c", "25 °C" ↦ "25", "256-QAM" ↦ "256", "256QAM" ↦ "256qam",
"25 C" ↦ "25", "25.0c" ↦ "250c", and the claimed equivalences all fail. -/
theorem c3_normalize_token_actual_values :
    normalize_token (strL ("25C")) = strL ("25c")
    ∧ normalize_token (strL ("25 °C")) = strL ("25")
    ∧ normalize_token (strL ("256-QAM")) = strL ("256")
    ∧ normalize_token (strL ("256QAM")) = strL ("256qam")
    ∧ normalize_token (strL ("25 C")) = strL ("25")
    ∧ normalize_token (strL ("25.0c")) = strL ("250c") := by
  decide

/-- C4 (counterexample): with rule line "Operating temperature: -30C to 55C"
and plan "Test at -30C and +55C, verify operation." the line is reported in
the missing-lines result, so it is not Covered as the claim states. -/
theorem c4_counterexample :
    strL ("Operating temperature: -30C to 55C")
      ∈ get_missing_rule_lines [strL ("Operating temperature: -30C to 55C")]
          (strL ("Test at -30C and +55C, verify operation.")) := by
  decide

/-- C4 (amended): both numeric rule tokens do match after normalization (the
rule tokens "30C" and "55C" and the plan's "-30C"/"+55C" all normalize to
"30c" and "55c" — the minus sign is stripped on both sides, not preserved),
but the line is still reported missing because its word tokens, e.g.
"Operating", have no counterpart in the plan's key set. -/
theorem c4_numeric_match_but_line_missing :
    normalize_token (strL ("-30C")) = strL ("30c")
    ∧ normalize_token (strL ("30C")) = strL ("30c")
    ∧ strL ("30c") ∈ normalizedPlanTokens
        (strL ("Test at -30C and +55C, verify operation."))
    ∧ strL ("55c") ∈ normalizedPlanTokens
        (strL ("Test at -30C and +55C, verify operation."))
    ∧ normalize_token (strL ("Operating")) ∉ normalizedPlanTokens
        (strL ("Test at -30C and +55C, verify operation."))
    ∧ get_missing_rule_lines [strL ("Operating temperature: -30C to 55C")]
        (strL ("Test at -30C and +55C, verify operation."))
      = [strL ("Operating temperature: -30C to 55C")] := by
  decide

/-- C5 (counterexample): growing the plan text can move a line away from
Covered: the rule line "3" is covered against the plan "3" but missing against
the longer plan "3 c" (the number pattern absorbs the following word as a
unit, replacing the key "3" by "3c"). -/
theorem c5_counterexample :
    get_missing_rule_lines [strL ("3")] (strL ("3")) = []
    ∧ get_missing_rule_lines [strL ("3")] (strL ("3") ++ strL (" c"))
        = [strL ("3")] := by
  decide

/-- C5 (amended): coverage is monotone in the plan's normalized key set, not
in the plan text: if every normalized key of plan p is also a key of plan p2,
any line reported missing against p2 is missing against p, so a line covered
against p stays covered against p2; growing the text itself can shrink the
key set and break coverage. -/
theorem c5_keyset_monotone (rule_lines : List (List Char))
    (p p2 line : List Char)
    (hsub : normalizedPlanTokens p ⊆ normalizedPlanTokens p2)
    (hmem : line ∈ get_missing_rule_lines rule_lines p2) :
    line ∈ get_missing_rule_lines rule_lines p := by
  rw [mem_get_missing] at hmem ⊢
  obtain ⟨hl, tok, htok, hkey⟩ := hmem
  exact ⟨hl, tok, htok, fun hin => hkey (hsub hin)⟩

theorem c5_keyset_monotone_witness :
    normalizedPlanTokens (strL ("ab")) ⊆ normalizedPlanTokens (strL ("ab cd"))
    ∧ strL ("qq") ∈ get_missing_rule_lines [strL ("qq")] (strL ("ab cd"))
    ∧ strL ("qq") ∈ get_missing_rule_lines [strL ("qq")] (strL ("ab")) :=
  ⟨by decide, by decide,
    c5_keyset_monotone [strL ("qq")] (strL ("ab")) (strL ("ab cd"))
      (strL ("qq")) (by decide) (by decide)⟩

/-- C6 (counterexample): normalize_token is not idempotent: on ".2a5" it
yields "2a5", which a second application shortens to "2a". -/
theorem c6_counterexample :
    ¬ normalize_token (normalize_token (strL (".2a5")))
        = normalize_token (strL (".2a5")) := by
  decide

/-- C6 (amended): normalize_token is not idempotent, but it stabilizes after
two applications: a third application never changes the result, and on any
token whose characters are already lowercase alphanumeric a second
application is the identity. -/
theorem c6_normalize_token_stabilizes (t : List Char) :
    normalize_token (normalize_token (normalize_token t))
      = normalize_token (normalize_token t) :=
  normalize_token_idem_of_kept (normalize_token_kept t)

/-- C7 (spec-modelled fuzzy mode): when exact normalized match fails for a
word-class rule item but some plan token has similarity at least the partial
threshold 1/2 and below the full-match threshold 7/10, the line's status is
Partial rather than Missing; in particular the rule "Check frequency
stability" against the plan "Frequency stabilty test included" yields
Partial. -/
theorem c7_fuzzy_mode_near_match :
    (∀ line plan_text : List Char,
        (∃ i ∈ missingItemsOf line plan_text, wordClassItem i = true ∧
            ∃ t ∈ extract_check_items_robust plan_text,
              (1 : ℚ)/2 ≤ similarity i t ∧ similarity i t < 7/10) →
        evaluateLine true ((1 : ℚ)/2) line plan_text = Status.partlyCovered)
    ∧ evaluateLine true ((1 : ℚ)/2) (strL ("Check frequency stability"))
        (strL ("Frequency stabilty test included")) = Status.partlyCovered := by
  constructor
  · intro line plan_text h
    obtain ⟨i, hi, hw, t, ht, h1, h2⟩ := h
    unfold evaluateLine
    rw [if_neg (Finset.ne_empty_of_mem hi)]
    by_cases hm : matchedItemsOf line plan_text ≠ ∅
    · rw [if_pos hm]
    · rw [if_neg hm, if_pos ⟨rfl, i, hi, hw, t, ht, h1⟩]
  · decide

theorem c7_fuzzy_mode_near_match_witness :
    (∃ i ∈ missingItemsOf (strL ("abcdefghij")) (strL ("abcdefwxyz")),
        wordClassItem i = true ∧
        ∃ t ∈ extract_check_items_robust (strL ("abcdefwxyz")),
          (1 : ℚ)/2 ≤ similarity i t ∧ similarity i t < 7/10)
    ∧ evaluateLine true ((1 : ℚ)/2) (strL ("abcdefghij")) (strL ("abcdefwxyz"))
        = Status.partlyCovered := by
  have hsim : similarity (strL ("abcdefghij")) (strL ("abcdefwxyz")) = 3/5 := by
    have h1 : (strL ("abcdefghij")).length = 10 := by decide
    have h2 : (strL ("abcdefwxyz")).length = 10 := by decide
    have hlev : editDistance (strL ("abcdefghij")) (strL ("abcdefwxyz")) = 4 := by
      decide
    simp only [similarity, h1, h2, hlev]
    norm_num
  have hhyp : ∃ i ∈ missingItemsOf (strL ("abcdefghij")) (strL ("abcdefwxyz")),
      wordClassItem i = true ∧
      ∃ t ∈ extract_check_items_robust (strL ("abcdefwxyz")),
        (1 : ℚ)/2 ≤ similarity i t ∧ similarity i t < 7/10 := by
    refine ⟨strL ("abcdefghij"), by decide, by decide,
      strL ("abcdefwxyz"), by decide, ?_, ?_⟩
    · rw [hsim]
      norm_num
    · rw [hsim]
      norm_num
  exact ⟨hhyp, c7_fuzzy_mode_near_match.1 (strL ("abcdefghij"))
    (strL ("abcdefwxyz")) hhyp⟩

/-- C8: a rule line from which no tokens can be extracted (for instance pure
punctuation or the empty line) is vacuously treated as Covered: it never
appears in the missing-lines result, whatever the plan text; the embedded
Matcher is a total function, so no input raises. -/
theorem c8_unparseable_line_vacuously_covered (rule_lines : List (List Char))
    (plan_text line : List Char) (h : ruleLineTokens line = []) :
    line ∉ get_missing_rule_lines rule_lines plan_text := by
  rw [mem_get_missing]
  rintro ⟨-, tok, htok, -⟩
  rw [h] at htok
  exact absurd htok (List.not_mem_nil tok)

theorem c8_unparseable_line_vacuously_covered_witness :
    ruleLineTokens (strL ("!!!")) = []
    ∧ strL ("!!!") ∉ get_missing_rule_lines [strL ("!!!")] (strL ("some plan")) :=
  ⟨by decide, c8_unparseable_line_vacuously_covered [strL ("!!!")]
      (strL ("some plan")) (strL ("!!!")) (by decide)⟩

/-- C9: empty or whitespace-only input is not an error: an empty rule
document yields an empty missing-lines list for every plan, the empty and
whitespace-only plans have an empty normalized key set, and against an empty
plan every rule line that has at least one token is deterministically
reported missing (all items missing). -/
theorem c9_empty_inputs (plan_text line : List Char)
    (rule_lines : List (List Char)) :
    get_missing_rule_lines [] plan_text = []
    ∧ normalizedPlanTokens (strL ("")) = ∅
    ∧ normalizedPlanTokens (strL ("   ")) = ∅
    ∧ (line ∈ rule_lines → ruleLineTokens line ≠ [] →
        line ∈ get_missing_rule_lines rule_lines (strL (""))) := by
  refine ⟨rfl, by decide, by decide, ?_⟩
  intro hmem hne
  rw [mem_get_missing]
  refine ⟨hmem, ?_⟩
  cases htk : ruleLineTokens line with
  | nil => exact absurd htk hne
  | cons tok rest =>
    refine ⟨tok, by simp [htk], ?_⟩
    have hempty : normalizedPlanTokens (strL ("")) = ∅ := by decide
    simp [hempty]

theorem c9_empty_inputs_witness :
    strL ("ab") ∈ [strL ("ab")]
    ∧ ruleLineTokens (strL ("ab")) ≠ []
    ∧ strL ("ab") ∈ get_missing_rule_lines [strL ("ab")] (strL ("")) :=
  ⟨by decide, by decide,
    (c9_empty_inputs (strL ("")) (strL ("ab")) [strL ("ab")]).2.2.2
      (by decide) (by decide)⟩

/-- C10: every normalized key consists only of lowercase letters and digits:
normalize_token always produces such a string, every item extracted by
extract_check_items_robust is such a string, and in particular the minus sign
and the decimal point are stripped, so normalize_token maps "-30c" and "30c"
to the same key and "2.5" and "25" to the same key. -/
theorem c10_keys_lowercase_alnum :
    (∀ t : List Char, ∀ c ∈ normalize_token t, isKeptChar c = true)
    ∧ (∀ text item : List Char, item ∈ extract_check_items_robust text →
        ∀ c ∈ item, isKeptChar c = true)
    ∧ normalize_token (strL ("-30c")) = normalize_token (strL ("30c"))
    ∧ normalize_token (strL ("2.5")) = normalize_token (strL ("25")) := by
  refine ⟨normalize_token_kept, ?_, by decide, by decide⟩
  intro text item hmem c hc
  simp only [extract_check_items_robust, List.mem_toFinset, List.mem_filter,
    List.mem_map] at hmem
  obtain ⟨⟨x, hx, rfl⟩, -⟩ := hmem
  exact mem_strip_kept hc

theorem c10_keys_lowercase_alnum_witness :
    ('b' ∈ normalize_token (strL ("B-2")) ∧ isKeptChar 'b' = true)
    ∧ (strL ("ab") ∈ extract_check_items_robust (strL ("ab!"))
        ∧ 'a' ∈ strL ("ab") ∧ isKeptChar 'a' = true) :=
  ⟨⟨by decide, c10_keys_lowercase_alnum.1 (strL ("B-2")) 'b' (by decide)⟩,
    ⟨by decide, by decide,
      c10_keys_lowercase_alnum.2.1 (strL ("ab!")) (strL ("ab")) (by decide)
        'a' (by decide)⟩⟩
